import Mathlib

/-!
Shallow embedding of `SimUGANSpeech/scripts/librispeech_initialize.py`.

Python strings are modelled as Lean `String`; the string primitives the
script uses (`str.strip`, `re.split(' ', _)`, `" ".join`, `str.endswith`,
`os.path.join`, `os.path.dirname`, `os.path.basename`) are defined below
over the character list `String.data`, following CPython semantics.

The filesystem is an oracle: `os.walk` output is a list of `WalkEntry`
triples, file contents are a function from path to raw lines, and the
download/clean stages act on explicit state records.  A Python run that
raises an uncaught exception is modelled as `none`.
-/

namespace SimUGANSpeech

/-- Python whitespace characters recognised by `str.strip()`. -/
def isPySpace (c : Char) : Bool :=
  c = ' ' || c = '\t' || c = '\n' || c = '\r' || c = '\x0b' || c = '\x0c'

/-- Python `str.strip()`: drop leading and trailing whitespace. -/
def pyStrip (s : String) : String :=
  String.mk (((s.data.dropWhile isPySpace).reverse.dropWhile isPySpace).reverse)

/-- Split a character list at every occurrence of `sep`, keeping empty
chunks, with `cur` the (reversed) pending chunk.  This is the semantics of
Python `re.split(sep, s)` for a single literal character. -/
def splitOnCharAux (sep : Char) : List Char → List Char → List (List Char)
  | [], cur => [cur.reverse]
  | c :: rest, cur =>
      if c = sep then cur.reverse :: splitOnCharAux sep rest []
      else splitOnCharAux sep rest (c :: cur)

/-- Python `re.split(sep, s)` for a single literal character `sep`. -/
def pySplitChar (sep : Char) (s : String) : List String :=
  (splitOnCharAux sep s.data []).map String.mk

/-- Interleave `sep` between chunks: semantics of Python `sep.join`. -/
def joinOnChar (sep : Char) : List (List Char) → List Char
  | [] => []
  | [c] => c
  | c :: c2 :: rest => c ++ sep :: joinOnChar sep (c2 :: rest)

/-- Python `sep.join(l)` for a single-character separator. -/
def pyJoinChar (sep : Char) (l : List String) : String :=
  String.mk (joinOnChar sep (l.map String.data))

/-- Python `s.endswith(suffix)`. -/
def pyEndsWith (s suffix : String) : Bool :=
  suffix.data.isSuffixOf s.data

/-- Model of `os.path.join(a, b)` (posixpath, two arguments). -/
def osPathJoin (a b : String) : String :=
  if b.data.head? = some '/' then b
  else if a = "" then b
  else if a.data.getLast? = some '/' then a ++ b
  else a ++ "/" ++ b

/-- Model of `os.path.dirname(p)` (posixpath): everything before the last slash,
with trailing slashes stripped unless the result is all slashes. -/
def dirname (p : String) : String :=
  let head := (p.data.reverse.dropWhile (fun c => c ≠ '/')).reverse
  if head.all (fun c => c = '/') then String.mk head
  else String.mk ((head.reverse.dropWhile (fun c => c = '/')).reverse)

/-- Model of `os.path.basename(p)` (posixpath): everything after the last slash. -/
def basename (p : String) : String :=
  String.mk ((p.data.reverse.takeWhile (fun c => c ≠ '/')).reverse)

/-- One step of the `os.walk` iterator: `(dir_name, sub_directories,
file_names)`.  `_voice_txt_dict_from_path` consumes exactly this stream,
in the order `os.walk` yields it (top-down discovery order). -/
structure WalkEntry where
  dir_name : String
  sub_directories : List String
  file_names : List String
deriving Repr, DecidableEq

/-- Python 3.7+ `dict` update as used in `_voice_txt_dict_from_path`:
a new key is appended at the end (insertion order), an existing key keeps
its position and appends the value to its list. -/
def dictAppend (d : List (String × List String)) (k v : String) :
    List (String × List String) :=
  if d.any (fun p => p.1 = k) then
    d.map (fun p => if p.1 = k then (p.1, p.2 ++ [v]) else p)
  else d ++ [(k, [v])]

/-- Body of the `os.walk` loop in `_voice_txt_dict_from_path`.  A
directory with no subdirectories is a leaf; its file names are joined
with the directory, filtered by `endswith('txt')`, and indexing `[0]`
into an empty filter result is the uncaught `IndexError`, modelled as
`none`. -/
def walkStep (acc : Option (List (String × List String))) (e : WalkEntry) :
    Option (List (String × List String)) :=
  acc.bind fun voice_txt_dict =>
    if e.sub_directories = [] then
      let fns := e.file_names.map (fun x => osPathJoin e.dir_name x)
      match fns.filter (fun x => pyEndsWith x "txt") with
      | [] => none
      | txt_file :: _ =>
          some (dictAppend voice_txt_dict (basename e.dir_name) txt_file)
    else some voice_txt_dict

/-- Embedding of `_voice_txt_dict_from_path`, over the `os.walk` stream. -/
def voiceTxtDictFromPath (walk : List WalkEntry) :
    Option (List (String × List String)) :=
  walk.foldl walkStep (some [])

/-- The body of the line loop in `_transcriptions_and_flac`:
`splitted = re.split(' ', line)`, `file_name = splitted[0]`, transcription
`" ".join(splitted[1:])`, flac path `join(parent, file_name + ".flac")`.
`splitted[0]` on an empty list would be an `IndexError` (`none`). -/
def parseLine (parent_dir_path line : String) : Option (String × String) :=
  match pySplitChar ' ' line with
  | [] => none
  | file_name :: rest =>
      some (pyJoinChar ' ' rest, osPathJoin parent_dir_path (file_name ++ ".flac"))

/-- Embedding of `_transcriptions_and_flac`: strip each raw line, then for every line
append one transcription and one flac path. -/
def transcriptionsAndFlac (txt_file_path : String) (rawLines : List String) :
    Option (List String × List String) :=
  let parent_dir_path := dirname txt_file_path
  let lines := rawLines.map pyStrip
  lines.foldl
    (fun acc line => acc.bind fun r =>
      (parseLine parent_dir_path line).map fun e =>
        (r.1 ++ [e.1], r.2 ++ [e.2]))
    (some ([], []))

/-- Transcription produced for one raw line (closed form). -/
def transOfLine (line : String) : String :=
  pyJoinChar ' ' (pySplitChar ' ' (pyStrip line)).tail

/-- Flac path produced for one raw line (closed form). -/
def flacOfLine (parent_dir_path line : String) : String :=
  osPathJoin parent_dir_path
    (((pySplitChar ' ' (pyStrip line)).headD "") ++ ".flac")

/-- The flat index built by `flacpath_transcription_id`: parallel lists
`paths` (flac files), `transcriptions`, `ids` (voice ids). -/
structure CorpusIndex where
  paths : List String
  transcriptions : List String
  ids : List String
deriving Repr, DecidableEq

/-- Embedding of `flacpath_transcription_id`: walk the folder, then for each voice id
in dict order and each of its txt files in order, parse and append the
flac paths, the transcriptions, and `len(flacs)` copies of the voice id. -/
def flacpath_transcription_id (walk : List WalkEntry)
    (contents : String → List String) : Option CorpusIndex :=
  (voiceTxtDictFromPath walk).bind fun voice_txt_dict =>
    voice_txt_dict.foldl
      (fun acc p =>
        p.2.foldl
          (fun acc2 txt_file => acc2.bind fun idx =>
            (transcriptionsAndFlac txt_file (contents txt_file)).map fun tf =>
              { paths := idx.paths ++ tf.2,
                transcriptions := idx.transcriptions ++ tf.1,
                ids := idx.ids ++ List.replicate tf.2.length p.1 })
          acc)
      (some { paths := [], transcriptions := [], ids := [] })

/-- State of the filesystem plus an effect log for the fetch stage:
`tree` is the set of existing paths (as a list), `downloads` logs the URLs
fetched by `urllib.request.urlretrieve`, `extracts` logs the tar files
extracted by `tarfile.open(...).extractall`. -/
structure FetchState where
  tree : List String
  downloads : List String
  extracts : List String
deriving Repr, DecidableEq

/-- Model of `os.path.exists` over the modelled tree. -/
def pathExists (st : FetchState) (p : String) : Bool :=
  st.tree.contains p

/-- The constant `LIBRISPEECH_URL_BASE` with the templating hole at the end: the Python
`"http://www.openslr.org/resources/12/{0}".format(x)` is `base ++ x`. -/
def LIBRISPEECH_URL_BASE : String :=
  "http://www.openslr.org/resources/12/"

/-- Body of the loop in `_maybe_download_and_extract` for one folder name:
skip when `folder_dir/fname` exists; otherwise download the archive to
`folder_dir/fname.tar.gz` and extract it into `folder_dir/..`.  The
LibriSpeech archive's root directory matches `folder_dir`'s basename with
the dataset inside, so the extraction effect is modelled as creating
`folder_dir/fname` (this is the archive-layout assumption the code relies
on; the `verbose` flag only changes printing and is omitted). -/
def downloadStep (folder_dir : String) (s : FetchState) (fname : String) :
    FetchState :=
  if pathExists s (osPathJoin folder_dir fname) then s
  else
    let tar_file_name := fname ++ ".tar.gz"
    let tar_file_path := osPathJoin folder_dir tar_file_name
    let url := LIBRISPEECH_URL_BASE ++ tar_file_name
    { tree := s.tree ++ [tar_file_path, osPathJoin folder_dir fname],
      downloads := s.downloads ++ [url],
      extracts := s.extracts ++ [tar_file_path] }

/-- Embedding of `_maybe_download_and_extract`: create `folder_dir` if missing
(`os.makedirs`), then run `downloadStep` over the folder names. -/
def maybe_download_and_extract (folder_dir : String)
    (folder_names : List String) (st : FetchState) : FetchState :=
  let st1 :=
    if pathExists st folder_dir then st
    else { st with tree := st.tree ++ [folder_dir] }
  folder_names.foldl (downloadStep folder_dir) st1

/-- Directory listings of the save tree: each entry is a directory path
paired with the file names `os.listdir` would return for it. -/
def lookupDir : List (String × List String) → String → Option (List String)
  | [], _ => none
  | e :: t, p => if e.1 = p then some e.2 else lookupDir t p

/-- Replace the listing of directory `p` (the effect of `os.remove` on the
files deleted from it). -/
def updateDir (fs : List (String × List String)) (p : String)
    (l : List String) : List (String × List String) :=
  fs.map (fun e => if e.1 = p then (p, l) else e)

/-- Body of the `--clean` loop in `__main__` for one folder name: if
`save_dir/fname` exists, list it, take the files ending in `".pkl"`, and
`os.remove` each of them — i.e. the surviving listing is the files not
ending in `".pkl"`.  A missing directory is skipped. -/
def cleanStep (save_dir : String) (fs : List (String × List String))
    (fname : String) : List (String × List String) :=
  let fpath := osPathJoin save_dir fname
  match lookupDir fs fpath with
  | none => fs
  | some listing =>
      updateDir fs fpath (listing.filter (fun f => !(pyEndsWith f ".pkl")))

/-- The `--clean` handling in `__main__`: run `cleanStep` over the
selected folder names. -/
def cleanSaves (save_dir : String) (folder_names : List String)
    (fs : List (String × List String)) : List (String × List String) :=
  folder_names.foldl (cleanStep save_dir) fs

/-- Embedding of `librispeech_initialize`: for each folder name, compute
`fpath = join(folder_dir, fname)` and
`master_file_path = join(fpath, "master.pkl")`; raise `ValueError`
(modelled `none`) when `fpath` does not exist; otherwise build the index
and `pickle.dump` it to `master_file_path`.  The returned list logs each
`(path, data)` write.  `save_folder` is the fourth parameter of the Python
function; the `verbose` flag only prints and is omitted. -/
def librispeech_initialize (folder_dir : String) (folder_names : List String)
    (save_folder : String) (fsE : String → Bool)
    (walkOf : String → List WalkEntry) (contents : String → List String) :
    Option (List (String × CorpusIndex)) :=
  folder_names.foldl
    (fun acc fname => acc.bind fun writes =>
      let fpath := osPathJoin folder_dir fname
      let master_file_path := osPathJoin fpath "master.pkl"
      if fsE fpath then
        (flacpath_transcription_id (walkOf fpath) contents).map fun data =>
          writes ++ [(master_file_path, data)]
      else none)
    (some [])

/-! String lemmas -/

theorem splitOnCharAux_ne_nil (sep : Char) (l cur : List Char) :
    splitOnCharAux sep l cur ≠ [] := by
  induction l generalizing cur with
  | nil => simp [splitOnCharAux]
  | cons c rest ih =>
      simp only [splitOnCharAux]
      split
      · simp
      · exact ih _

theorem pySplitChar_ne_nil (sep : Char) (s : String) :
    pySplitChar sep s ≠ [] := by
  unfold pySplitChar
  simp [splitOnCharAux_ne_nil]

theorem splitOnCharAux_append_sep (sep : Char) (ys : List Char) :
    ∀ (xs cur : List Char), sep ∉ xs →
      splitOnCharAux sep (xs ++ sep :: ys) cur =
        (cur.reverse ++ xs) :: splitOnCharAux sep ys [] := by
  intro xs
  induction xs with
  | nil => intro cur _; simp [splitOnCharAux]
  | cons c t ih =>
      intro cur h
      have hc : ¬(c = sep) := fun he => h (he ▸ List.mem_cons_self c t)
      have ht : sep ∉ t := fun hm => h (List.mem_cons_of_mem c hm)
      simp only [List.cons_append, splitOnCharAux, if_neg hc]
      simpa using ih (c :: cur) ht

theorem joinOnChar_splitOnCharAux (sep : Char) :
    ∀ (l cur : List Char),
      joinOnChar sep (splitOnCharAux sep l cur) = cur.reverse ++ l := by
  intro l
  induction l with
  | nil => intro cur; simp [splitOnCharAux, joinOnChar]
  | cons c rest ih =>
      intro cur
      by_cases hc : c = sep
      · subst hc
        simp only [splitOnCharAux, if_pos rfl]
        obtain ⟨a, as, he⟩ :=
          List.exists_cons_of_ne_nil (splitOnCharAux_ne_nil c rest [])
        rw [he]
        show cur.reverse ++ c :: joinOnChar c (a :: as) = cur.reverse ++ c :: rest
        rw [← he, ih []]
        simp
      · simp only [splitOnCharAux, if_neg hc]
        rw [ih (c :: cur)]
        simp

theorem pyJoinChar_pySplitChar (sep : Char) (s : String) :
    pyJoinChar sep (pySplitChar sep s) = s := by
  unfold pyJoinChar pySplitChar
  rw [List.map_map]
  have hmm : (String.data ∘ String.mk) = id := rfl
  rw [hmm, List.map_id, joinOnChar_splitOnCharAux]
  rfl

theorem pySplitChar_space_append (id text : String) (h : ' ' ∉ id.data) :
    pySplitChar ' ' (id ++ " " ++ text) = id :: pySplitChar ' ' text := by
  unfold pySplitChar
  have hdata : (id ++ " " ++ text).data = id.data ++ ' ' :: text.data := by
    rw [String.data_append, String.data_append, List.append_assoc]
    rfl
  rw [hdata, splitOnCharAux_append_sep ' ' text.data id.data [] h]
  rfl

/-! Parser characterisation -/

theorem parseLine_eq (d line : String) :
    parseLine d line =
      some (pyJoinChar ' ' (pySplitChar ' ' line).tail,
        osPathJoin d (((pySplitChar ' ' line).headD "") ++ ".flac")) := by
  unfold parseLine
  obtain ⟨a, as, he⟩ :=
    List.exists_cons_of_ne_nil (pySplitChar_ne_nil ' ' line)
  rw [he]
  rfl

theorem parse_foldl_eq (d : String) (lines : List String) :
    ∀ (ts fs : List String),
      lines.foldl
        (fun acc line => acc.bind fun r =>
          (parseLine d line).map fun e => (r.1 ++ [e.1], r.2 ++ [e.2]))
        (some (ts, fs)) =
      some (ts ++ lines.map (fun l => pyJoinChar ' ' (pySplitChar ' ' l).tail),
        fs ++ lines.map
          (fun l => osPathJoin d (((pySplitChar ' ' l).headD "") ++ ".flac"))) := by
  induction lines with
  | nil => intro ts fs; simp
  | cons l rest ih =>
      intro ts fs
      rw [List.foldl_cons]
      have hstep :
          (some (ts, fs)).bind (fun r =>
            (parseLine d l).map fun e => (r.1 ++ [e.1], r.2 ++ [e.2])) =
          some (ts ++ [pyJoinChar ' ' (pySplitChar ' ' l).tail],
            fs ++ [osPathJoin d (((pySplitChar ' ' l).headD "") ++ ".flac")]) := by
        rw [Option.some_bind, parseLine_eq]
        rfl
      rw [hstep, ih]
      simp

theorem transcriptionsAndFlac_eq (p : String) (rawLines : List String) :
    transcriptionsAndFlac p rawLines =
      some (rawLines.map transOfLine,
        rawLines.map (flacOfLine (dirname p))) := by
  unfold transcriptionsAndFlac
  rw [parse_foldl_eq (dirname p) (rawLines.map pyStrip) [] []]
  simp only [List.nil_append, List.map_map]
  rfl

/-! Index-builder characterisation -/

/-- Flac paths contributed by one txt file. -/
def fileFlacs (contents : String → List String) (t : String) : List String :=
  (contents t).map (flacOfLine (dirname t))

/-- Transcriptions contributed by one txt file. -/
def fileTrans (contents : String → List String) (t : String) : List String :=
  (contents t).map transOfLine

theorem inner_foldl_eq (contents : String → List String) (vid : String)
    (txts : List String) :
    ∀ (idx : CorpusIndex),
      txts.foldl
        (fun acc2 txt_file => acc2.bind fun idx =>
          (transcriptionsAndFlac txt_file (contents txt_file)).map fun tf =>
            { paths := idx.paths ++ tf.2,
              transcriptions := idx.transcriptions ++ tf.1,
              ids := idx.ids ++ List.replicate tf.2.length vid })
        (some idx) =
      some { paths := idx.paths ++ txts.flatMap (fileFlacs contents),
             transcriptions :=
               idx.transcriptions ++ txts.flatMap (fileTrans contents),
             ids := idx.ids ++
               txts.flatMap (fun t => List.replicate (contents t).length vid) } := by
  induction txts with
  | nil => intro idx; simp
  | cons t rest ih =>
      intro idx
      rw [List.foldl_cons, Option.some_bind, transcriptionsAndFlac_eq,
        Option.map_some', ih]
      simp [fileFlacs, fileTrans, List.flatMap_cons]

theorem dict_foldl_eq (contents : String → List String)
    (vd : List (String × List String)) :
    ∀ (idx : CorpusIndex),
      vd.foldl
        (fun acc p =>
          p.2.foldl
            (fun acc2 txt_file => acc2.bind fun idx =>
              (transcriptionsAndFlac txt_file (contents txt_file)).map fun tf =>
                { paths := idx.paths ++ tf.2,
                  transcriptions := idx.transcriptions ++ tf.1,
                  ids := idx.ids ++ List.replicate tf.2.length p.1 })
            acc)
        (some idx) =
      some { paths := idx.paths ++
               vd.flatMap (fun p => p.2.flatMap (fileFlacs contents)),
             transcriptions := idx.transcriptions ++
               vd.flatMap (fun p => p.2.flatMap (fileTrans contents)),
             ids := idx.ids ++ vd.flatMap (fun p =>
               p.2.flatMap (fun t => List.replicate (contents t).length p.1)) } := by
  induction vd with
  | nil => intro idx; simp
  | cons q rest ih =>
      intro idx
      rw [List.foldl_cons, inner_foldl_eq contents q.1 q.2 idx, ih]
      simp [List.flatMap_cons, List.append_assoc]

theorem flacpath_eq (walk : List WalkEntry) (contents : String → List String)
    (vd : List (String × List String))
    (h : voiceTxtDictFromPath walk = some vd) :
    flacpath_transcription_id walk contents =
      some { paths := vd.flatMap (fun p => p.2.flatMap (fileFlacs contents)),
             transcriptions :=
               vd.flatMap (fun p => p.2.flatMap (fileTrans contents)),
             ids := vd.flatMap (fun p =>
               p.2.flatMap (fun t => List.replicate (contents t).length p.1)) } := by
  unfold flacpath_transcription_id
  rw [h, Option.some_bind, dict_foldl_eq contents vd]
  simp

/-! Claim theorems -/

theorem length_flatMap_congr {α β γ : Type} (l : List α) (f : α → List β)
    (g : α → List γ) (h : ∀ a ∈ l, (f a).length = (g a).length) :
    (l.flatMap f).length = (l.flatMap g).length := by
  induction l with
  | nil => rfl
  | cons a t ih =>
      simp only [List.flatMap_cons, List.length_append]
      rw [h a (List.mem_cons_self a t),
        ih (fun x hx => h x (List.mem_cons_of_mem a hx))]

/-- C1: for every dataset root (modelled by its `os.walk` stream and file
contents), any index built by `flacpath_transcription_id` has
`len(paths) == len(transcriptions) == len(ids)`. -/
theorem flacpath_parallel_lengths (walk : List WalkEntry)
    (contents : String → List String) (idx : CorpusIndex)
    (h : flacpath_transcription_id walk contents = some idx) :
    idx.paths.length = idx.transcriptions.length ∧
      idx.transcriptions.length = idx.ids.length := by
  cases hv : voiceTxtDictFromPath walk with
  | none =>
      unfold flacpath_transcription_id at h
      rw [hv] at h
      simp at h
  | some vd =>
      rw [flacpath_eq walk contents vd hv] at h
      have hidx := Option.some.inj h
      subst hidx
      constructor
      · exact length_flatMap_congr vd _ _ (fun p _ =>
          length_flatMap_congr p.2 _ _ (fun t _ => by
            simp [fileFlacs, fileTrans]))
      · exact length_flatMap_congr vd _ _ (fun p _ =>
          length_flatMap_congr p.2 _ _ (fun t _ => by
            simp [fileTrans]))

/-- Closed instance of `flacpath_parallel_lengths` on a one-leaf corpus. -/
theorem flacpath_parallel_lengths_witness :
    (CorpusIndex.mk ["r/A/A-1.flac"] ["HI"] ["A"]).paths.length =
        (CorpusIndex.mk ["r/A/A-1.flac"] ["HI"] ["A"]).transcriptions.length ∧
      (CorpusIndex.mk ["r/A/A-1.flac"] ["HI"] ["A"]).transcriptions.length =
        (CorpusIndex.mk ["r/A/A-1.flac"] ["HI"] ["A"]).ids.length :=
  flacpath_parallel_lengths
    [⟨"r", ["A"], []⟩, ⟨"r/A", [], ["x.txt"]⟩]
    (fun p => if p = "r/A/x.txt" then ["A-1 HI"] else [])
    ⟨["r/A/A-1.flac"], ["HI"], ["A"]⟩ (by decide)

/-- C2: a transcript line `id ++ " " ++ text` (id nonempty, no space) at
position `i` of the file yields transcription `text` and audio path
`dirname(file) / (id ++ ".flac")` at position `i` of the parser output. -/
theorem parser_line_correct (p : String) (rawLines : List String) (i : Nat)
    (hi : i < rawLines.length) (id text : String) (hid : id ≠ "")
    (hsp : ' ' ∉ id.data)
    (hline : pyStrip (rawLines.get ⟨i, hi⟩) = id ++ " " ++ text) :
    ∃ ts fs, transcriptionsAndFlac p rawLines = some (ts, fs) ∧
      ts[i]? = some text ∧
      fs[i]? = some (osPathJoin (dirname p) (id ++ ".flac")) := by
  refine ⟨_, _, transcriptionsAndFlac_eq p rawLines, ?_, ?_⟩
  · rw [List.getElem?_map, List.getElem?_eq_getElem hi]
    simp only [Option.map_some']
    congr 1
    unfold transOfLine
    rw [show rawLines[i] = rawLines.get ⟨i, hi⟩ from rfl, hline,
      pySplitChar_space_append id text hsp]
    simp only [List.tail_cons]
    exact pyJoinChar_pySplitChar ' ' text
  · rw [List.getElem?_map, List.getElem?_eq_getElem hi]
    simp only [Option.map_some']
    congr 1
    unfold flacOfLine
    rw [show rawLines[i] = rawLines.get ⟨i, hi⟩ from rfl, hline,
      pySplitChar_space_append id text hsp]
    rfl

/-- Closed instance of `parser_line_correct`: the spec's own example,
line `"1234-0001 HELLO WORLD"` under directory `data/1234/`. -/
theorem parser_line_correct_witness :
    (osPathJoin (dirname "data/1234/1234.trans.txt") ("1234-0001" ++ ".flac") =
        "data/1234/1234-0001.flac") ∧
      ∃ ts fs,
        transcriptionsAndFlac "data/1234/1234.trans.txt"
            ["1234-0001 HELLO WORLD\n"] = some (ts, fs) ∧
          ts[0]? = some "HELLO WORLD" ∧
          fs[0]? = some (osPathJoin (dirname "data/1234/1234.trans.txt")
            ("1234-0001" ++ ".flac")) :=
  ⟨by decide,
   parser_line_correct "data/1234/1234.trans.txt" ["1234-0001 HELLO WORLD\n"] 0
     (by decide) "1234-0001" "HELLO WORLD" (by decide) (by decide) (by decide)⟩

/-- C3 counterexample: a file with one empty line and one non-empty line
produces two entries, not one — the empty line is not skipped; it yields
transcription `""` and audio path `"d/.flac"`. -/
theorem parser_empty_line_counterexample :
    transcriptionsAndFlac "d/t.txt" ["\n", "x-1 HI\n"] =
      some (["", "HI"], ["d/.flac", "d/x-1.flac"]) := by decide

/-- C3 amended: the parser produces one output entry for every line of the
file, empty lines included; a line that strips to `""` contributes the
entry `("", dirname(file) / ".flac")` at its position. -/
theorem parser_empty_line_entry (p : String) (rawLines : List String) (i : Nat)
    (hi : i < rawLines.length)
    (hline : pyStrip (rawLines.get ⟨i, hi⟩) = "") :
    ∃ ts fs, transcriptionsAndFlac p rawLines = some (ts, fs) ∧
      ts.length = rawLines.length ∧ fs.length = rawLines.length ∧
      ts[i]? = some "" ∧ fs[i]? = some (osPathJoin (dirname p) ".flac") := by
  refine ⟨_, _, transcriptionsAndFlac_eq p rawLines, by simp, by simp, ?_, ?_⟩
  · rw [List.getElem?_map, List.getElem?_eq_getElem hi]
    simp only [Option.map_some']
    congr 1
    unfold transOfLine
    rw [show rawLines[i] = rawLines.get ⟨i, hi⟩ from rfl, hline]
    rfl
  · rw [List.getElem?_map, List.getElem?_eq_getElem hi]
    simp only [Option.map_some']
    congr 1
    unfold flacOfLine
    rw [show rawLines[i] = rawLines.get ⟨i, hi⟩ from rfl, hline]
    rfl

/-- Closed instance of `parser_empty_line_entry` at a two-line file whose
second line is blank. -/
theorem parser_empty_line_entry_witness :
    ∃ ts fs,
      transcriptionsAndFlac "e/u.txt" ["y-1 OK\n", "  \n"] = some (ts, fs) ∧
        ts.length = 2 ∧ fs.length = 2 ∧
        ts[1]? = some "" ∧
        fs[1]? = some (osPathJoin (dirname "e/u.txt") ".flac") :=
  parser_empty_line_entry "e/u.txt" ["y-1 OK\n", "  \n"] 1 (by decide) (by decide)

/-- C4 counterexample: a line with no whitespace-separated token (blank
after stripping) does not make the parser fail — it returns `some`,
producing an entry with empty utterance id instead of raising. -/
theorem parser_no_token_counterexample :
    transcriptionsAndFlac "d2/t.txt" [" \n"] = some ([""], ["d2/.flac"]) := by
  decide

/-- C4 amended: the parser never fails on any input: `re.split(' ', line)`
always returns at least one (possibly empty) token, so `splitted[0]` never
raises and every line — including one with no whitespace-separated
token — is silently turned into an entry. -/
theorem parser_never_fails (p : String) (rawLines : List String) :
    (transcriptionsAndFlac p rawLines).isSome = true := by
  rw [transcriptionsAndFlac_eq]
  rfl

theorem foldl_walkStep_none (walk : List WalkEntry) :
    walk.foldl walkStep none = none := by
  induction walk with
  | nil => rfl
  | cons a t ih =>
      rw [List.foldl_cons]
      exact ih

theorem foldl_walkStep_none_of_mem (e : WalkEntry)
    (hleaf : e.sub_directories = [])
    (hno : ∀ f ∈ e.file_names,
      pyEndsWith (osPathJoin e.dir_name f) "txt" = false) :
    ∀ (walk : List WalkEntry), e ∈ walk →
      ∀ acc, walk.foldl walkStep acc = none := by
  intro walk
  induction walk with
  | nil => intro he; cases he
  | cons a t ih =>
      intro he acc
      rw [List.foldl_cons]
      rcases List.mem_cons.mp he with rfl | hmem
      · have hstep : walkStep acc e = none := by
          cases acc with
          | none => rfl
          | some d =>
              unfold walkStep
              rw [Option.some_bind, if_pos hleaf]
              have hfil : (e.file_names.map
                    (fun x => osPathJoin e.dir_name x)).filter
                  (fun x => pyEndsWith x "txt") = [] := by
                rw [List.filter_eq_nil_iff]
                intro x hx
                obtain ⟨f, hf, rfl⟩ := List.mem_map.mp hx
                simp [hno f hf]
              simp only [hfil]
        rw [hstep]
        exact foldl_walkStep_none t
      · exact ih hmem _

/-- C5 amended: if some leaf directory of the tree contains no file whose
name ends with the three characters `txt` (the code checks the suffix
`'txt'`, dot not required), the walker fails — the `[0]` indexing raises
an uncaught `IndexError`, modelled as `none` — rather than silently
proceeding. -/
theorem walker_fails_on_leaf_without_txt (walk : List WalkEntry)
    (e : WalkEntry) (he : e ∈ walk) (hleaf : e.sub_directories = [])
    (hno : ∀ f ∈ e.file_names,
      pyEndsWith (osPathJoin e.dir_name f) "txt" = false) :
    voiceTxtDictFromPath walk = none :=
  foldl_walkStep_none_of_mem e hleaf hno walk he (some [])

/-- Closed instance of `walker_fails_on_leaf_without_txt`: a leaf holding
only `a.flac` makes the walker fail. -/
theorem walker_fails_on_leaf_without_txt_witness :
    voiceTxtDictFromPath [⟨"root/19", [], ["a.flac"]⟩] = none :=
  walker_fails_on_leaf_without_txt [⟨"root/19", [], ["a.flac"]⟩]
    ⟨"root/19", [], ["a.flac"]⟩ (by decide) (by decide) (by decide)

/-- C5 counterexample: a leaf directory containing only the file `mytxt`
has no file ending in the transcript extension `.txt`, yet the walker
succeeds (the code tests `endswith('txt')`, no dot), refuting the claim
that it fails with an error in this situation. -/
theorem walker_txt_suffix_counterexample :
    voiceTxtDictFromPath [⟨"root/19", [], ["mytxt"]⟩] =
        some [("19", ["root/19/mytxt"])] ∧
      (["mytxt"].filter
        (fun f => pyEndsWith (osPathJoin "root/19" f) ".txt")) = [] := by
  decide

/-- C7: the built index is the insertion-order flattening of the walker's
dict: groups appear in order of first discovery, all utterances of one
transcript file are contiguous, in line order. -/
theorem flacpath_insertion_order (walk : List WalkEntry)
    (contents : String → List String) (vd : List (String × List String))
    (h : voiceTxtDictFromPath walk = some vd) :
    flacpath_transcription_id walk contents =
      some { paths := vd.flatMap (fun p => p.2.flatMap (fileFlacs contents)),
             transcriptions :=
               vd.flatMap (fun p => p.2.flatMap (fileTrans contents)),
             ids := vd.flatMap (fun p =>
               p.2.flatMap (fun t => List.replicate (contents t).length p.1)) } :=
  flacpath_eq walk contents vd h

/-- Closed instance of `flacpath_insertion_order` on a two-group corpus
with group `A` discovered before group `B`: all `A` entries precede all
`B` entries and file lines stay in order. -/
theorem flacpath_insertion_order_witness :
    flacpath_transcription_id
        [⟨"r", ["A", "B"], []⟩, ⟨"r/A", [], ["x.txt"]⟩, ⟨"r/B", [], ["y.txt"]⟩]
        (fun p => if p = "r/A/x.txt" then ["A-1 HI\n", "A-2 YO\n"]
          else ["B-1 OK\n"]) =
      some { paths := [("A", ["r/A/x.txt"]), ("B", ["r/B/y.txt"])].flatMap
               (fun p => p.2.flatMap (fileFlacs
                 (fun p => if p = "r/A/x.txt" then ["A-1 HI\n", "A-2 YO\n"]
                   else ["B-1 OK\n"]))),
             transcriptions :=
               [("A", ["r/A/x.txt"]), ("B", ["r/B/y.txt"])].flatMap
               (fun p => p.2.flatMap (fileTrans
                 (fun p => if p = "r/A/x.txt" then ["A-1 HI\n", "A-2 YO\n"]
                   else ["B-1 OK\n"]))),
             ids := [("A", ["r/A/x.txt"]), ("B", ["r/B/y.txt"])].flatMap
               (fun p => p.2.flatMap (fun t => List.replicate
                 ((fun p => if p = "r/A/x.txt" then ["A-1 HI\n", "A-2 YO\n"]
                   else ["B-1 OK\n"]) t).length p.1)) } :=
  flacpath_insertion_order
    [⟨"r", ["A", "B"], []⟩, ⟨"r/A", [], ["x.txt"]⟩, ⟨"r/B", [], ["y.txt"]⟩]
    (fun p => if p = "r/A/x.txt" then ["A-1 HI\n", "A-2 YO\n"]
      else ["B-1 OK\n"])
    [("A", ["r/A/x.txt"]), ("B", ["r/B/y.txt"])] (by decide)

/-- C8 amended: for a leaf directory whose joined file names filtered by
the suffix check `endswith('txt')` (dot not required) are `t :: rest`,
the walker selects exactly `t` — the first match in listing order,
`rest` silently ignored — and appends it under the leaf basename key,
preserving discovery order. -/
theorem walker_leaf_selects_first_txt (pre : List WalkEntry) (e : WalkEntry)
    (d : List (String × List String)) (t : String) (rest : List String)
    (hpre : voiceTxtDictFromPath pre = some d)
    (hleaf : e.sub_directories = [])
    (hfil : (e.file_names.map (fun x => osPathJoin e.dir_name x)).filter
        (fun x => pyEndsWith x "txt") = t :: rest) :
    voiceTxtDictFromPath (pre ++ [e]) =
      some (dictAppend d (basename e.dir_name) t) := by
  unfold voiceTxtDictFromPath at hpre ⊢
  rw [List.foldl_append, hpre, List.foldl_cons, List.foldl_nil]
  unfold walkStep
  rw [Option.some_bind, if_pos hleaf]
  simp only [hfil]

/-- Closed instance of `walker_leaf_selects_first_txt`: with two `.txt`
files the first in listing order is chosen. -/
theorem walker_leaf_selects_first_txt_witness :
    voiceTxtDictFromPath [⟨"s/7", [], ["a.txt", "b.txt"]⟩] =
      some (dictAppend [] (basename "s/7") "s/7/a.txt") :=
  walker_leaf_selects_first_txt [] ⟨"s/7", [], ["a.txt", "b.txt"]⟩ []
    "s/7/a.txt" ["s/7/b.txt"] (by decide) (by decide) (by decide)

/-- C8 counterexample: in a leaf listing `["atxt", "b.txt"]` the walker
selects `atxt` — a file that does not end in `.txt` — even though the
`.txt` file `b.txt` is present, refuting the claim that the selected
file is the first one ending in the extension `.txt`. -/
theorem walker_dotless_txt_counterexample :
    voiceTxtDictFromPath [⟨"r/19", [], ["atxt", "b.txt"]⟩] =
        some [("19", ["r/19/atxt"])] ∧
      pyEndsWith "r/19/atxt" ".txt" = false ∧
      pyEndsWith "r/19/b.txt" ".txt" = true := by
  decide

/-! Fetch-stage lemmas -/

theorem pathExists_iff_mem (st : FetchState) (p : String) :
    pathExists st p = true ↔ p ∈ st.tree := by
  simp [pathExists, List.elem_iff]

theorem downloadStep_tree_mono (fd : String) (s : FetchState) (f p : String)
    (h : p ∈ s.tree) : p ∈ (downloadStep fd s f).tree := by
  unfold downloadStep
  split
  · exact h
  · exact List.mem_append_left _ h

theorem foldl_downloadStep_tree_mono (fd : String) (names : List String) :
    ∀ (s : FetchState) (p : String), p ∈ s.tree →
      p ∈ (names.foldl (downloadStep fd) s).tree := by
  induction names with
  | nil => intro s p h; exact h
  | cons n rest ih =>
      intro s p h
      rw [List.foldl_cons]
      exact ih _ p (downloadStep_tree_mono fd s n p h)

theorem downloadStep_creates (fd : String) (s : FetchState) (f : String) :
    osPathJoin fd f ∈ (downloadStep fd s f).tree := by
  unfold downloadStep
  split
  · next h => exact (pathExists_iff_mem s _).mp h
  · simp

theorem foldl_downloadStep_all_exist (fd : String) (names : List String) :
    ∀ (s : FetchState) (f : String), f ∈ names →
      osPathJoin fd f ∈ (names.foldl (downloadStep fd) s).tree := by
  induction names with
  | nil => intro s f h; cases h
  | cons n rest ih =>
      intro s f h
      rw [List.foldl_cons]
      rcases List.mem_cons.mp h with rfl | hmem
      · exact foldl_downloadStep_tree_mono fd rest _ _
          (downloadStep_creates fd s f)
      · exact ih _ f hmem

theorem foldl_downloadStep_skip (fd : String) (names : List String) :
    ∀ (s : FetchState),
      (∀ f ∈ names, pathExists s (osPathJoin fd f) = true) →
      names.foldl (downloadStep fd) s = s := by
  induction names with
  | nil => intro s _; rfl
  | cons n rest ih =>
      intro s h
      rw [List.foldl_cons]
      have hstep : downloadStep fd s n = s := by
        unfold downloadStep
        rw [if_pos (h n (List.mem_cons_self n rest))]
      rw [hstep]
      exact ih s (fun f hf => h f (List.mem_cons_of_mem n hf))

/-- C6: `_maybe_download_and_extract` is idempotent — running it on its
own result changes nothing — and when every `folder_dir/fname` already
exists it performs no download and no extraction (the only possible
effect is `os.makedirs(folder_dir)`). -/
theorem maybe_download_and_extract_idempotent (folder_dir : String)
    (folder_names : List String) (st : FetchState) :
    maybe_download_and_extract folder_dir folder_names
        (maybe_download_and_extract folder_dir folder_names st) =
      maybe_download_and_extract folder_dir folder_names st ∧
    ((∀ fname ∈ folder_names,
        pathExists st (osPathJoin folder_dir fname) = true) →
      maybe_download_and_extract folder_dir folder_names st =
        { st with tree :=
            if pathExists st folder_dir then st.tree
            else st.tree ++ [folder_dir] }) := by
  constructor
  · have hfd : folder_dir ∈
        (maybe_download_and_extract folder_dir folder_names st).tree := by
      unfold maybe_download_and_extract
      apply foldl_downloadStep_tree_mono
      split
      · next h => exact (pathExists_iff_mem st folder_dir).mp h
      · simp
    have hall : ∀ f ∈ folder_names, osPathJoin folder_dir f ∈
        (maybe_download_and_extract folder_dir folder_names st).tree := by
      intro f hf
      unfold maybe_download_and_extract
      exact foldl_downloadStep_all_exist folder_dir folder_names _ f hf
    have key : ∀ (s : FetchState), folder_dir ∈ s.tree →
        (∀ f ∈ folder_names, osPathJoin folder_dir f ∈ s.tree) →
        maybe_download_and_extract folder_dir folder_names s = s := by
      intro s h1 h2
      show List.foldl (downloadStep folder_dir)
        (if pathExists s folder_dir then s
          else { s with tree := s.tree ++ [folder_dir] }) folder_names = s
      rw [if_pos ((pathExists_iff_mem s folder_dir).mpr h1)]
      exact foldl_downloadStep_skip folder_dir folder_names s
        (fun f hf => (pathExists_iff_mem _ _).mpr (h2 f hf))
    exact key _ hfd hall
  · intro h
    unfold maybe_download_and_extract
    have hskip : ∀ f ∈ folder_names,
        pathExists (if pathExists st folder_dir then st
          else { st with tree := st.tree ++ [folder_dir] })
          (osPathJoin folder_dir f) = true := by
      intro f hf
      apply (pathExists_iff_mem _ _).mpr
      have hm : osPathJoin folder_dir f ∈ st.tree :=
        (pathExists_iff_mem st _).mp (h f hf)
      split
      · exact hm
      · exact List.mem_append_left _ hm
    rw [foldl_downloadStep_skip folder_dir folder_names _ hskip]
    split <;> rfl

/-- Closed instance of `maybe_download_and_extract_idempotent`: with the
dataset already on disk the call returns the state unchanged. -/
theorem maybe_download_and_extract_idempotent_witness :
    maybe_download_and_extract "LS" ["dev-clean"]
        ⟨["LS", "LS/dev-clean"], [], []⟩ =
      { tree := ["LS", "LS/dev-clean"], downloads := [], extracts := [] } := by
  rw [(maybe_download_and_extract_idempotent "LS" ["dev-clean"]
    ⟨["LS", "LS/dev-clean"], [], []⟩).2 (by decide)]
  decide

/-! Clean-stage lemmas -/

theorem lookupDir_updateDir (fs : List (String × List String)) (p : String)
    (l : List String) (q : String) :
    lookupDir (updateDir fs p l) q =
      if q = p then (lookupDir fs p).map (fun _ => l) else lookupDir fs q := by
  induction fs with
  | nil =>
      by_cases hq : q = p <;> simp [lookupDir, updateDir, hq]
  | cons e t ih =>
      simp only [updateDir, List.map_cons] at ih ⊢
      by_cases hep : e.1 = p
      · by_cases hq : q = p
        · subst hq
          simp [lookupDir, hep]
        · have hpq : ¬(p = q) := fun hh => hq hh.symm
          have heq2 : ¬(e.1 = q) := by rw [hep]; exact hpq
          rw [if_neg hq] at ih ⊢
          simp only [lookupDir, if_pos hep, if_neg hpq, if_neg heq2]
          exact ih
      · by_cases hq : q = p
        · subst hq
          have heq2 : ¬(e.1 = q) := hep
          rw [if_pos rfl] at ih ⊢
          simp only [lookupDir, if_neg hep, if_neg heq2]
          exact ih
        · rw [if_neg hq] at ih ⊢
          by_cases heq : e.1 = q
          · simp only [lookupDir, if_neg hep]
            simp [heq]
          · simp only [lookupDir, if_neg hep, if_neg heq]
            exact ih

theorem lookupDir_cleanStep (sd : String) (fs : List (String × List String))
    (n : String) (dpath : String) :
    lookupDir (cleanStep sd fs n) dpath =
      (lookupDir fs dpath).map (fun listing =>
        if osPathJoin sd n = dpath then
          listing.filter (fun f => !(pyEndsWith f ".pkl"))
        else listing) := by
  cases hl : lookupDir fs (osPathJoin sd n) with
  | none =>
      by_cases hq : osPathJoin sd n = dpath
      · subst hq
        simp [cleanStep, hl]
      · simp only [cleanStep, hl]
        cases hd : lookupDir fs dpath <;> simp [hq]
  | some listing =>
      simp only [cleanStep, hl]
      rw [lookupDir_updateDir]
      by_cases hq : dpath = osPathJoin sd n
      · rw [if_pos hq, hq, hl]
        simp [hq.symm]
      · rw [if_neg hq]
        have hq2 : ¬(osPathJoin sd n = dpath) := fun hh => hq hh.symm
        cases hd : lookupDir fs dpath <;> simp [hq2]

/-- C9: the `--clean` stage deletes exactly the files ending in `".pkl"`
inside each selected dataset directory: for every directory path, the
resulting listing is the old one with the `.pkl` files filtered out when
the directory is one of the selected `save_dir/fname`, and is untouched
otherwise; an absent dataset directory stays absent (no-op, and the
modelled operation is total — nothing is raised). -/
theorem cleanSaves_spec (save_dir : String) (folder_names : List String)
    (fs : List (String × List String)) (dpath : String) :
    lookupDir (cleanSaves save_dir folder_names fs) dpath =
      (lookupDir fs dpath).map (fun listing =>
        if folder_names.any (fun n => osPathJoin save_dir n = dpath) then
          listing.filter (fun f => !(pyEndsWith f ".pkl"))
        else listing) := by
  induction folder_names generalizing fs with
  | nil =>
      cases hd : lookupDir fs dpath <;> simp [cleanSaves, hd]
  | cons n rest ih =>
      show lookupDir (cleanSaves save_dir rest (cleanStep save_dir fs n))
        dpath = _
      rw [ih (cleanStep save_dir fs n), lookupDir_cleanStep]
      cases lookupDir fs dpath with
      | none => rfl
      | some l =>
          simp only [Option.map_some']
          congr 1
          by_cases h1 : osPathJoin save_dir n = dpath <;>
            by_cases h2 : rest.any (fun m => osPathJoin save_dir m = dpath) <;>
              simp [h1, h2, List.any_cons, List.filter_filter]

/-! Initialisation lemmas -/

theorem foldl_bind_none {α β : Type} (g : β → α → Option α) (l : List β) :
    l.foldl (fun acc e => acc.bind fun d => g e d) none = none := by
  induction l with
  | nil => rfl
  | cons a t ih => simpa using ih

theorem init_foldl_writes (folder_dir : String) (fsE : String → Bool)
    (walkOf : String → List WalkEntry) (contents : String → List String) :
    ∀ (names : List String) (acc writes : List (String × CorpusIndex)),
      names.foldl
        (fun acc fname => acc.bind fun writes =>
          let fpath := osPathJoin folder_dir fname
          let master_file_path := osPathJoin fpath "master.pkl"
          if fsE fpath then
            (flacpath_transcription_id (walkOf fpath) contents).map fun data =>
              writes ++ [(master_file_path, data)]
          else none)
        (some acc) = some writes →
      ∀ w ∈ writes, w ∈ acc ∨ ∃ fname ∈ names,
        w.1 = osPathJoin (osPathJoin folder_dir fname) "master.pkl" := by
  intro names
  induction names with
  | nil =>
      intro acc writes h w hw
      rw [List.foldl_nil] at h
      exact Or.inl (Option.some.inj h ▸ hw)
  | cons n rest ih =>
      intro acc writes h w hw
      simp only [List.foldl_cons, Option.some_bind] at h
      by_cases hE : fsE (osPathJoin folder_dir n) = true
      · rw [if_pos hE] at h
        cases hb : flacpath_transcription_id
            (walkOf (osPathJoin folder_dir n)) contents with
        | none =>
            rw [hb, Option.map_none'] at h
            rw [foldl_bind_none] at h
            exact Option.noConfusion h
        | some data =>
            rw [hb, Option.map_some'] at h
            rcases ih _ writes h w hw with hmem | ⟨f, hf, hp⟩
            · rcases List.mem_append.mp hmem with hacc | hnew
              · exact Or.inl hacc
              · refine Or.inr ⟨n, List.mem_cons_self n rest, ?_⟩
                have hws := List.mem_singleton.mp hnew
                rw [hws]
            · exact Or.inr ⟨f, List.mem_cons_of_mem n hf, hp⟩
      · rw [if_neg hE] at h
        rw [foldl_bind_none] at h
        exact Option.noConfusion h

/-- C10: `librispeech_initialize` ignores its `save_folder` argument: two
calls differing only in `save_folder` return identical results, and every
persisted file goes to `folder_dir/<fname>/master.pkl`. -/
theorem librispeech_initialize_ignores_save_folder (folder_dir : String)
    (folder_names : List String) (sf1 sf2 : String) (fsE : String → Bool)
    (walkOf : String → List WalkEntry) (contents : String → List String) :
    librispeech_initialize folder_dir folder_names sf1 fsE walkOf contents =
        librispeech_initialize folder_dir folder_names sf2 fsE walkOf
          contents ∧
      (∀ writes, librispeech_initialize folder_dir folder_names sf1 fsE walkOf
          contents = some writes →
        ∀ w ∈ writes, ∃ fname ∈ folder_names,
          w.1 = osPathJoin (osPathJoin folder_dir fname) "master.pkl") := by
  constructor
  · rfl
  · intro writes h w hw
    rcases init_foldl_writes folder_dir fsE walkOf contents folder_names []
        writes h w hw with hmem | hex
    · exact absurd hmem (List.not_mem_nil w)
    · exact hex

/-- Closed instance of `librispeech_initialize_ignores_save_folder` on a
one-dataset run. -/
theorem librispeech_initialize_ignores_save_folder_witness :
    ∃ fname ∈ ["dev-clean"],
      (("fd/dev-clean/master.pkl",
          CorpusIndex.mk ["fd/dev-clean/1/z-1.flac"] ["W"] ["1"]) :
        String × CorpusIndex).1 =
        osPathJoin (osPathJoin "fd" fname) "master.pkl" :=
  (librispeech_initialize_ignores_save_folder "fd" ["dev-clean"] "sfA" "sfB"
      (fun _ => true)
      (fun _ => [⟨"fd/dev-clean/1", [], ["z.txt"]⟩])
      (fun _ => ["z-1 W\n"])).2
    [("fd/dev-clean/master.pkl",
      CorpusIndex.mk ["fd/dev-clean/1/z-1.flac"] ["W"] ["1"])]
    (by decide)
    ("fd/dev-clean/master.pkl",
      CorpusIndex.mk ["fd/dev-clean/1/z-1.flac"] ["W"] ["1"])
    (by decide)

end SimUGANSpeech
